import Mathlib

/-!
Shallow embedding of the enhanced memory subsystem of TinyTroupe
(src/tinytroupe/enhanced_memory.py): the `MemoryChunk` data model, the
SQLite-backed `EnhancedSemanticMemory` store and its operations `store`,
`retrieve_relevant`, `consolidate_memories` and `clear`.

Modelling conventions:
* The sentence-transformers encoder and sklearn cosine similarity are external
  collaborators; they enter as parameters `encode : String → Emb` and
  `sim : Emb → Emb → ℚ` (similarity scores are modelled as rationals instead
  of floats).
* The SQLite table is a list of rows in insertion (id) order plus the
  AUTOINCREMENT counter.  A plain SELECT scans rows in that order.
* `pickle.dumps`/`pickle.loads` round-trip of an embedding is modelled by the
  row field `embedding : Option Emb`: `some e` is a blob that decodes to `e`,
  `none` is a blob on which `pickle.loads` raises (corruption).
* `json.dumps`/`json.loads` of the metadata dict round-trip faithfully; the
  metadata values actually produced by the code are the empty dict and
  \x7b"consolidated_from": [...]\x7d, all other caller-supplied dicts are kept
  opaque as their serialized text.
* Each sqlite3 connection commits independently: `store` opens its own
  connection and commits at once, while `consolidate_memories` stages its
  UPDATEs on the outer connection and commits them at the end of the run
  (rolling them back on error).  Cross-connection lock contention is not
  modelled.  The failure-injection parameter `fuse` makes the k-th write of a
  consolidation run raise, mirroring a storage failure at that point.
-/

namespace EnhancedMemory

/-- The JSON metadata dict attached to a memory row.  The code itself only
ever constructs the empty dict (for `metadata=None`, via `metadata or \x7b\x7d` in
`MemoryChunk.__init__`) and `\x7b"consolidated_from": ids\x7d` (in
`consolidate_memories`); any other caller-supplied dict is carried opaquely as
its serialized JSON text. -/
inductive Metadata where
  | empty
  | consolidatedFrom (ids : List Nat)
  | payload (s : String)
deriving DecidableEq, Repr

/-- One row of the `memories` table: id (AUTOINCREMENT), content, source,
timestamp (ISO-8601 text, modelled as a comparable integer), metadata (JSON
text), embedding (pickled BLOB, `none` = undecodable), type, consolidated. -/
structure Row (Emb : Type) where
  id : Nat
  content : String
  source : String
  timestamp : Int
  metadata : Metadata
  embedding : Option Emb
  type : String
  consolidated : Bool
deriving DecidableEq, Repr

/-- The per-agent database: the `memories` table in insertion order together
with the AUTOINCREMENT counter (which `DELETE FROM memories` does not reset). -/
structure DB (Emb : Type) where
  rows : List (Row Emb)
  nextId : Nat
deriving DecidableEq, Repr

/-- `EnhancedSemanticMemory.store`: encode the content, build the chunk
(`metadata or \x7b\x7d`), INSERT the row with `consolidated` defaulting to 0, and
commit on the operation's own connection. -/
def store {Emb : Type} (encode : String → Emb) (now : Int)
    (content source memoryType : String) (metadata : Option Metadata)
    (db : DB Emb) : DB Emb :=
  let chunkMetadata := match metadata with
    | none => Metadata.empty
    | some m => m
  let newRow : Row Emb :=
    { id := db.nextId, content := content, source := source,
      timestamp := now, metadata := chunkMetadata,
      embedding := some (encode content), type := memoryType,
      consolidated := false }
  { rows := db.rows ++ [newRow], nextId := db.nextId + 1 }

/-- One element of the `memories` result list built by `retrieve_relevant`:
the dict with content, source, timestamp, metadata and similarity. -/
structure RetrievedMemory where
  content : String
  source : String
  timestamp : Int
  metadata : Metadata
  similarity : ℚ
deriving DecidableEq, Repr

/-- The SELECT of `retrieve_relevant`: all rows, or the rows with the given
type when a filter is passed, in table-scan (insertion) order. -/
def rowsMatching {Emb : Type} (db : DB Emb) (memoryType : Option String) :
    List (Row Emb) :=
  match memoryType with
  | some t => db.rows.filter (fun r => r.type == t)
  | none => db.rows

/-- The cursor loop of `retrieve_relevant`: for each row, `pickle.loads` the
embedding (an undecodable blob raises, aborting the whole query — there is no
try/except around it) and record the row with its cosine similarity. -/
def buildMemories {Emb : Type} (sim : Emb → Emb → ℚ) (queryEmbedding : Emb) :
    List (Row Emb) → Except Unit (List RetrievedMemory)
  | [] => .ok []
  | r :: rest =>
    match r.embedding with
    | none => .error ()
    | some e =>
      match buildMemories sim queryEmbedding rest with
      | .error u => .error u
      | .ok ms =>
        let m : RetrievedMemory :=
          { content := r.content, source := r.source,
            timestamp := r.timestamp, metadata := r.metadata,
            similarity := sim queryEmbedding e }
        .ok (m :: ms)

/-- Stable insertion used to model Python's stable `list.sort(key=...,
reverse=True)`: an element moves before the first entry whose similarity is
not larger, so equal scores keep their original relative order. -/
def insertDesc (m : RetrievedMemory) : List RetrievedMemory → List RetrievedMemory
  | [] => [m]
  | x :: l => if x.similarity ≤ m.similarity then m :: x :: l else x :: insertDesc m l

/-- `memories.sort(key=lambda x: x['similarity'], reverse=True)` — a stable
sort by similarity descending. -/
def sortDesc : List RetrievedMemory → List RetrievedMemory
  | [] => []
  | m :: l => insertDesc m (sortDesc l)

/-- Python's `l[:k]` for an arbitrary (possibly negative) integer `k`. -/
def pySliceTo {α : Type} (l : List α) (k : Int) : List α :=
  if 0 ≤ k then l.take k.toNat else l.take (l.length - (-k).toNat)

/-- `EnhancedSemanticMemory.retrieve_relevant`: embed the query, SELECT the
rows matching the optional type filter, score each row (an undecodable
embedding blob raises), sort by similarity descending (stable), and return
`memories[:top_k]`. -/
def retrieve_relevant {Emb : Type} (sim : Emb → Emb → ℚ) (encode : String → Emb)
    (db : DB Emb) (query : String) (topK : Int) (memoryType : Option String) :
    Except Unit (List RetrievedMemory) :=
  match buildMemories sim (encode query) (rowsMatching db memoryType) with
  | .error u => .error u
  | .ok memories => .ok (pySliceTo (sortDesc memories) topK)

/-- One eligible record `(id_, content, pickle.loads(embedding))` as read at
the start of `consolidate_memories`. -/
structure MemRec (Emb : Type) where
  id : Nat
  content : String
  emb : Emb
deriving DecidableEq, Repr

/-- The eligibility SELECT of `consolidate_memories`:
type = 'episodic' AND consolidated = 0 AND datetime(timestamp) < datetime(cutoff). -/
def eligibleRows {Emb : Type} (db : DB Emb) (cutoff : Int) : List (Row Emb) :=
  db.rows.filter (fun r =>
    r.type == "episodic" && r.consolidated == false && decide (r.timestamp < cutoff))

/-- `pickle.loads` applied to every eligible row; a single undecodable blob
raises, aborting the run before anything is written. -/
def loadEligible {Emb : Type} : List (Row Emb) → Option (List (MemRec Emb))
  | [] => some []
  | r :: rest =>
    match r.embedding with
    | none => none
    | some e =>
      (loadEligible rest).map (fun ms => { id := r.id, content := r.content, emb := e } :: ms)

/-- The greedy seed-based grouping loop of `consolidate_memories`: the first
not-yet-used record seeds a group; every later unused record whose similarity
against the seed's embedding (`emb1`) reaches the threshold joins it and is
marked used; the remaining records are processed the same way.  The fuel
argument (always at least the list length at the call site) makes the
recursion structural. -/
def consolidateGroupsAux {Emb : Type} (sim : Emb → Emb → ℚ) (thr : ℚ) :
    Nat → List (MemRec Emb) → List (List (MemRec Emb))
  | _, [] => []
  | 0, _ :: _ => []
  | fuel + 1, seed :: rest =>
    (seed :: rest.filter (fun m => decide (thr ≤ sim seed.emb m.emb)))
      :: consolidateGroupsAux sim thr fuel
          (rest.filter (fun m => !decide (thr ≤ sim seed.emb m.emb)))

/-- The grouping pass over the eligible records. -/
def consolidateGroups {Emb : Type} (sim : Emb → Emb → ℚ) (thr : ℚ)
    (ms : List (MemRec Emb)) : List (List (MemRec Emb)) :=
  consolidateGroupsAux sim thr ms.length ms

/-- `if len(group) > 1` — only genuine clusters are consolidated. -/
def finalizedGroups {Emb : Type} (sim : Emb → Emb → ℚ) (thr : ℚ)
    (ms : List (MemRec Emb)) : List (List (MemRec Emb)) :=
  (consolidateGroups sim thr ms).filter (fun g => decide (1 < g.length))

/-- `"\n".join(content for _, content in group)`. -/
def combineContents {Emb : Type} (g : List (MemRec Emb)) : String :=
  String.intercalate "\n" (g.map (fun m => m.content))

/-- The individual database writes of a consolidation run, in program order:
for each finalized group, first the `self.store(...)` of the new semantic
record (which commits immediately on its own connection), then one
`UPDATE ... SET consolidated = 1` per source id (staged on the run's outer
connection and only committed by the final `conn.commit()`). -/
inductive CStep where
  | storeSemantic (content : String) (ids : List Nat)
  | flagSource (id : Nat)
deriving DecidableEq, Repr

/-- The write sequence of the `for group in consolidated_groups` loop. -/
def consolidationSteps {Emb : Type} (groups : List (List (MemRec Emb))) : List CStep :=
  groups.flatMap (fun g =>
    CStep.storeSemantic (combineContents g) (g.map (fun m => m.id))
      :: g.map (fun m => CStep.flagSource m.id))

/-- The immediately-durable effect of one step: a `storeSemantic` commits via
`store` on its own connection; a `flagSource` is only staged, so it has no
durable effect until the run's final commit. -/
def storeStepEffect {Emb : Type} (encode : String → Emb) (now : Int)
    (db : DB Emb) : CStep → DB Emb
  | .storeSemantic content ids =>
    store encode now content "memory_consolidation" "semantic"
      (some (Metadata.consolidatedFrom ids)) db
  | .flagSource _ => db

/-- `UPDATE memories SET consolidated = 1 WHERE id = ?`. -/
def setConsolidated {Emb : Type} (db : DB Emb) (id : Nat) : DB Emb :=
  { db with rows := db.rows.map (fun r =>
      if r.id == id then { r with consolidated := true } else r) }

/-- The ids staged for flagging by a step sequence. -/
def flaggedIds (steps : List CStep) : List Nat :=
  steps.filterMap (fun s => match s with
    | .flagSource i => some i
    | _ => none)

/-- Durable state after executing a list of steps WITHOUT the final commit:
only the `store` calls (own connections) have committed; staged flags are
lost.  This is the state a failure leaves behind after rollback. -/
def execStores {Emb : Type} (encode : String → Emb) (now : Int)
    (steps : List CStep) (db : DB Emb) : DB Emb :=
  steps.foldl (storeStepEffect encode now) db

/-- Durable state after a run that reaches its final `conn.commit()`: all
semantic-record stores plus all staged consolidated-flag updates. -/
def execAll {Emb : Type} (encode : String → Emb) (now : Int)
    (steps : List CStep) (db : DB Emb) : DB Emb :=
  (flaggedIds steps).foldl setConsolidated (execStores encode now steps db)

/-- `EnhancedSemanticMemory.consolidate_memories` with failure injection:
`fuse = some k` makes the k-th write raise (k counted from 0 over the run's
writes); `fuse = none` is a run without storage failure.  Returns the durable
database state and whether the run completed without error. -/
def consolidate_memories {Emb : Type} (sim : Emb → Emb → ℚ)
    (encode : String → Emb) (now timeThreshold : Int)
    (similarityThreshold : ℚ) (fuse : Option Nat) (db : DB Emb) :
    DB Emb × Bool :=
  let cutoff := now - timeThreshold
  match loadEligible (eligibleRows db cutoff) with
  | none => (db, false)
  | some memories =>
    if memories.isEmpty then (db, true)
    else
      let groups := finalizedGroups sim similarityThreshold memories
      let steps := consolidationSteps groups
      match fuse with
      | some k =>
        if k < steps.length then (execStores encode now (steps.take k) db, false)
        else (execAll encode now steps db, true)
      | none => (execAll encode now steps db, true)

/-- `EnhancedSemanticMemory.clear`: `DELETE FROM memories` (AUTOINCREMENT
counter survives). -/
def clear {Emb : Type} (db : DB Emb) : DB Emb :=
  { rows := [], nextId := db.nextId }

/-- The public operations of one `EnhancedSemanticMemory` instance. -/
inductive Op where
  | storeOp (now : Int) (content source memoryType : String) (metadata : Option Metadata)
  | retrieveOp (query : String) (topK : Int) (memoryType : Option String)
  | consolidateOp (now timeThreshold : Int) (similarityThreshold : ℚ) (fuse : Option Nat)
  | clearOp
deriving DecidableEq, Repr

/-- The database transition of one operation (`retrieve_relevant` only runs
SELECTs, so it leaves the store unchanged). -/
def stepOp {Emb : Type} (sim : Emb → Emb → ℚ) (encode : String → Emb)
    (db : DB Emb) : Op → DB Emb
  | .storeOp now c s ty md => store encode now c s ty md db
  | .retrieveOp _ _ _ => db
  | .consolidateOp now tth thr fuse =>
    (consolidate_memories sim encode now tth thr fuse db).1
  | .clearOp => clear db

/-- Run a sequence of operations. -/
def runOps {Emb : Type} (sim : Emb → Emb → ℚ) (encode : String → Emb)
    (ops : List Op) (db : DB Emb) : DB Emb :=
  ops.foldl (stepOp sim encode) db

/-- Well-formedness maintained by the SQLite schema: row ids are unique and
below the AUTOINCREMENT counter. -/
def DB.WF {Emb : Type} (db : DB Emb) : Prop :=
  (db.rows.map Row.id).Nodup ∧ ∀ r ∈ db.rows, r.id < db.nextId

instance {Emb : Type} (db : DB Emb) : Decidable db.WF := by
  unfold DB.WF; infer_instance

/-- Row evolution permitted by the spec: every field is frozen except the
`consolidated` flag, which may only go from false to true. -/
def RowEvolves {Emb : Type} (r r' : Row Emb) : Prop :=
  r'.id = r.id ∧ r'.content = r.content ∧ r'.source = r.source ∧
  r'.timestamp = r.timestamp ∧ r'.metadata = r.metadata ∧
  r'.embedding = r.embedding ∧ r'.type = r.type ∧
  (r.consolidated = true → r'.consolidated = true)

/-- The result entry produced for a row whose embedding decodes to `e`. -/
def memOfRow {Emb : Type} (sim : Emb → Emb → ℚ) (queryEmbedding : Emb)
    (r : Row Emb) (e : Emb) : RetrievedMemory :=
  { content := r.content, source := r.source, timestamp := r.timestamp,
    metadata := r.metadata, similarity := sim queryEmbedding e }

/-- The scored candidate list of a query on a store with no corrupt blobs. -/
def memsTotal {Emb : Type} (sim : Emb → Emb → ℚ) (queryEmbedding : Emb)
    (rows : List (Row Emb)) : List RetrievedMemory :=
  rows.filterMap (fun r => r.embedding.map (memOfRow sim queryEmbedding r))

/-- The eligible records of a consolidation run when no blob is corrupt. -/
def recsOf {Emb : Type} (rows : List (Row Emb)) : List (MemRec Emb) :=
  rows.filterMap (fun r =>
    r.embedding.map (fun e => { id := r.id, content := r.content, emb := e }))

/-- Pointwise form of a batch of consolidated-flag updates. -/
def flagIfIn {Emb : Type} (ids : List Nat) (r : Row Emb) : Row Emb :=
  if r.id ∈ ids then { r with consolidated := true } else r

section SortLemmas

theorem insertDesc_perm (m : RetrievedMemory) (l : List RetrievedMemory) :
    (insertDesc m l).Perm (m :: l) := by
  induction l with
  | nil => simp [insertDesc]
  | cons x l ih =>
    unfold insertDesc
    split
    · exact List.Perm.refl _
    · exact ((ih.cons x).trans (List.Perm.swap m x l))

theorem sortDesc_perm (l : List RetrievedMemory) : (sortDesc l).Perm l := by
  induction l with
  | nil => simp [sortDesc]
  | cons m l ih =>
    exact (insertDesc_perm m (sortDesc l)).trans (ih.cons m)

theorem insertDesc_pairwise (m : RetrievedMemory) (l : List RetrievedMemory)
    (h : l.Pairwise (fun a b => b.similarity ≤ a.similarity)) :
    (insertDesc m l).Pairwise (fun a b => b.similarity ≤ a.similarity) := by
  induction l with
  | nil => simp [insertDesc]
  | cons x l ih =>
    unfold insertDesc
    rcases List.pairwise_cons.mp h with ⟨hx, hl⟩
    split
    · rename_i hle
      refine List.pairwise_cons.mpr ⟨?_, h⟩
      intro y hy
      rcases List.mem_cons.mp hy with rfl | hy
      · exact hle
      · exact le_trans (hx y hy) hle
    · rename_i hlt
      refine List.pairwise_cons.mpr ⟨?_, ih hl⟩
      intro y hy
      rcases List.mem_cons.mp ((insertDesc_perm m l).mem_iff.mp hy) with rfl | hy
      · exact le_of_not_le hlt
      · exact hx y hy

theorem sortDesc_pairwise (l : List RetrievedMemory) :
    (sortDesc l).Pairwise (fun a b => b.similarity ≤ a.similarity) := by
  induction l with
  | nil => simp [sortDesc]
  | cons m l ih => exact insertDesc_pairwise m (sortDesc l) ih

theorem insertDesc_filter_eq (m : RetrievedMemory) (l : List RetrievedMemory) (v : ℚ) :
    (insertDesc m l).filter (fun x => decide (x.similarity = v)) =
      if m.similarity = v then
        m :: l.filter (fun x => decide (x.similarity = v))
      else l.filter (fun x => decide (x.similarity = v)) := by
  induction l with
  | nil =>
    by_cases hv : m.similarity = v <;> simp [insertDesc, List.filter, hv]
  | cons x l ih =>
    unfold insertDesc
    split
    · rename_i hle
      by_cases hv : m.similarity = v <;> simp [List.filter_cons, hv]
    · rename_i hlt
      have hxm : m.similarity < x.similarity := lt_of_not_le hlt
      by_cases hv : m.similarity = v
      · have hxv : ¬ (x.similarity = v) := by
          intro hx
          exact absurd (hx.trans hv.symm ▸ hxm) (lt_irrefl _)
        simp [List.filter_cons, hv, hxv, ih]
      · by_cases hxv : x.similarity = v <;> simp [List.filter_cons, hv, hxv, ih]

theorem sortDesc_filter_eq (l : List RetrievedMemory) (v : ℚ) :
    (sortDesc l).filter (fun x => decide (x.similarity = v)) =
      l.filter (fun x => decide (x.similarity = v)) := by
  induction l with
  | nil => simp [sortDesc]
  | cons m l ih =>
    show (insertDesc m (sortDesc l)).filter _ = _
    rw [insertDesc_filter_eq]
    by_cases hv : m.similarity = v <;> simp [List.filter_cons, hv, ih]

end SortLemmas

section RetrieveLemmas

variable {Emb : Type}

theorem buildMemories_eq_ok (sim : Emb → Emb → ℚ) (qe : Emb)
    (rows : List (Row Emb)) (h : ∀ r ∈ rows, r.embedding.isSome = true) :
    buildMemories sim qe rows = .ok (memsTotal sim qe rows) := by
  induction rows with
  | nil => rfl
  | cons r rest ih =>
    obtain ⟨e, he⟩ := Option.isSome_iff_exists.mp (h r (List.mem_cons_self r rest))
    have ih' := ih (fun x hx => h x (List.mem_cons_of_mem r hx))
    unfold buildMemories
    rw [he, ih']
    simp [memsTotal, List.filterMap_cons, he, memOfRow]

theorem buildMemories_error_iff (sim : Emb → Emb → ℚ) (qe : Emb)
    (rows : List (Row Emb)) :
    buildMemories sim qe rows = .error () ↔ ∃ r ∈ rows, r.embedding = none := by
  induction rows with
  | nil => simp [buildMemories]
  | cons r rest ih =>
    unfold buildMemories
    cases he : r.embedding with
    | none => simp [he]
    | some e =>
      cases hb : buildMemories sim qe rest with
      | error u =>
        cases u
        simp only [hb]
        constructor
        · intro _
          obtain ⟨r', hr', hr'e⟩ := ih.mp hb
          exact ⟨r', List.mem_cons_of_mem r hr', hr'e⟩
        · intro _; trivial
      | ok ms =>
        simp only [hb]
        constructor
        · intro hcon; exact absurd hcon (by simp)
        · rintro ⟨r', hr', hr'e⟩
          rcases List.mem_cons.mp hr' with rfl | hr'
          · rw [he] at hr'e; exact absurd hr'e (by simp)
          · exact absurd (ih.mpr ⟨r', hr', hr'e⟩) (by simp [hb])

theorem memsTotal_length (sim : Emb → Emb → ℚ) (qe : Emb)
    (rows : List (Row Emb)) (h : ∀ r ∈ rows, r.embedding.isSome = true) :
    (memsTotal sim qe rows).length = rows.length := by
  induction rows with
  | nil => rfl
  | cons r rest ih =>
    obtain ⟨e, he⟩ := Option.isSome_iff_exists.mp (h r (List.mem_cons_self r rest))
    have ih' := ih (fun x hx => h x (List.mem_cons_of_mem r hx))
    unfold memsTotal at ih' ⊢
    rw [List.filterMap_cons, he]
    simp [ih']

theorem mem_memsTotal {sim : Emb → Emb → ℚ} {qe : Emb} {rows : List (Row Emb)}
    {m : RetrievedMemory} (hm : m ∈ memsTotal sim qe rows) :
    ∃ r ∈ rows, ∃ e, r.embedding = some e ∧ m = memOfRow sim qe r e := by
  obtain ⟨r, hr, hmap⟩ := List.mem_filterMap.mp hm
  cases he : r.embedding with
  | none => rw [he] at hmap; exact absurd hmap (by simp)
  | some e =>
    rw [he] at hmap
    simp only [Option.map_some', Option.some.injEq] at hmap
    exact ⟨r, hr, e, he, hmap.symm⟩

theorem memOfRow_mem_memsTotal (sim : Emb → Emb → ℚ) (qe : Emb)
    {rows : List (Row Emb)} {r : Row Emb} (hr : r ∈ rows) {e : Emb}
    (he : r.embedding = some e) :
    memOfRow sim qe r e ∈ memsTotal sim qe rows :=
  List.mem_filterMap.mpr ⟨r, hr, by rw [he]; rfl⟩

theorem pySliceTo_eq_take {α : Type} (l : List α) (k : Int) :
    ∃ n, pySliceTo l k = l.take n := by
  unfold pySliceTo
  split
  · exact ⟨k.toNat, rfl⟩
  · exact ⟨l.length - (-k).toNat, rfl⟩

theorem rowsMatching_sublist (db : DB Emb) (t : Option String) :
    (rowsMatching db t).Sublist db.rows := by
  cases t with
  | none => exact List.Sublist.refl _
  | some t => exact List.filter_sublist _

theorem retrieve_relevant_eq_ok (sim : Emb → Emb → ℚ) (encode : String → Emb)
    (db : DB Emb) (q : String) (k : Int) (t : Option String)
    (h : ∀ r ∈ rowsMatching db t, r.embedding.isSome = true) :
    retrieve_relevant sim encode db q k t =
      .ok (pySliceTo (sortDesc (memsTotal sim (encode q) (rowsMatching db t))) k) := by
  unfold retrieve_relevant
  rw [buildMemories_eq_ok sim (encode q) _ h]

end RetrieveLemmas

section RetrieveClaims

variable {Emb : Type}

/-- C4: for every query and store contents (all stored blobs decodable — the
only case in which the query returns at all), `retrieve_relevant` returns the
records sorted by similarity in non-increasing order, and among records with
equal similarity the earlier-inserted precedes the later-inserted one: for
every score v, the records of the result with score v form a prefix of the
insertion-ordered candidate list restricted to score v. -/
theorem retrieval_ranking_stable (sim : Emb → Emb → ℚ) (encode : String → Emb)
    (db : DB Emb) (q : String) (k : Int) (t : Option String)
    (h : ∀ r ∈ rowsMatching db t, r.embedding.isSome = true) :
    ∃ res, retrieve_relevant sim encode db q k t = .ok res ∧
      res.Pairwise (fun a b => b.similarity ≤ a.similarity) ∧
      ∀ v : ℚ, res.filter (fun x => decide (x.similarity = v)) <+:
        (memsTotal sim (encode q) (rowsMatching db t)).filter
          (fun x => decide (x.similarity = v)) := by
  refine ⟨_, retrieve_relevant_eq_ok sim encode db q k t h, ?_, ?_⟩
  · obtain ⟨n, hn⟩ :=
      pySliceTo_eq_take (sortDesc (memsTotal sim (encode q) (rowsMatching db t))) k
    rw [hn]
    exact List.Pairwise.sublist (List.take_sublist n _) (sortDesc_pairwise _)
  · intro v
    obtain ⟨n, hn⟩ :=
      pySliceTo_eq_take (sortDesc (memsTotal sim (encode q) (rowsMatching db t))) k
    rw [hn]
    have hpre : (sortDesc (memsTotal sim (encode q) (rowsMatching db t))).take n <+:
        sortDesc (memsTotal sim (encode q) (rowsMatching db t)) :=
      ⟨(sortDesc (memsTotal sim (encode q) (rowsMatching db t))).drop n,
        List.take_append_drop n _⟩
    have := hpre.filter (fun x => decide (x.similarity = v))
    rwa [sortDesc_filter_eq] at this

/-- C5 (amended): if any matching row's embedding blob cannot be decoded, the
query raises and returns nothing at all (and conversely, the query only
raises in that case) — the corrupt row is NOT skipped and the other rows are
NOT returned. -/
theorem retrieve_error_iff_corrupt_row (sim : Emb → Emb → ℚ)
    (encode : String → Emb) (db : DB Emb) (q : String) (k : Int)
    (t : Option String) :
    retrieve_relevant sim encode db q k t = .error () ↔
      ∃ r ∈ rowsMatching db t, r.embedding = none := by
  constructor
  · intro h
    cases hb : buildMemories sim (encode q) (rowsMatching db t) with
    | error u => cases u; exact (buildMemories_error_iff _ _ _).mp hb
    | ok ms =>
      rw [retrieve_relevant, hb] at h
      exact absurd h (by simp)
  · intro hex
    rw [retrieve_relevant, (buildMemories_error_iff _ _ _).mpr hex]

/-- C6 (amended): with all matching blobs decodable, the result length is
`min k (number of matching records)` for `k ≥ 0` (so `k = 0` yields the empty
list and an empty store yields the empty list), while a negative `k` follows
Python slice semantics `memories[:k]` and returns
`(number of matching records) - |k|` records — not necessarily none. -/
theorem retrieve_topk_length (sim : Emb → Emb → ℚ) (encode : String → Emb)
    (db : DB Emb) (q : String) (k : Int) (t : Option String)
    (h : ∀ r ∈ rowsMatching db t, r.embedding.isSome = true) :
    ∃ res, retrieve_relevant sim encode db q k t = .ok res ∧
      (0 ≤ k → res.length = min k.toNat (rowsMatching db t).length) ∧
      (k < 0 → res.length = (rowsMatching db t).length - (-k).toNat) ∧
      (db.rows = [] → res = []) := by
  refine ⟨_, retrieve_relevant_eq_ok sim encode db q k t h, ?_, ?_, ?_⟩
  all_goals
    have hlen : (sortDesc (memsTotal sim (encode q) (rowsMatching db t))).length =
        (rowsMatching db t).length :=
      (sortDesc_perm _).length_eq.trans (memsTotal_length sim (encode q) _ h)
  · intro hk
    rw [pySliceTo, if_pos hk, List.length_take, hlen]
  · intro hk
    rw [pySliceTo, if_neg (not_le.mpr hk), List.length_take, hlen,
      min_eq_left (Nat.sub_le _ _)]
  · intro hempty
    have : rowsMatching db t = [] := by
      cases t <;> simp [rowsMatching, hempty]
    simp [pySliceTo, this, memsTotal, sortDesc]

theorem buildMemories_setFlag (sim : Emb → Emb → ℚ) (qe : Emb) (id : Nat)
    (l : List (Row Emb)) :
    buildMemories sim qe (l.map (fun r =>
      if r.id == id then { r with consolidated := true } else r)) =
      buildMemories sim qe l := by
  induction l with
  | nil => rfl
  | cons r rest ih =>
    simp only [List.map_cons]
    by_cases hid : (r.id == id) = true
    · simp only [hid, if_true]
      show buildMemories sim qe ({ r with consolidated := true } :: _) = _
      unfold buildMemories
      rw [ih]
    · have hr : (if (r.id == id) = true
          then ({ r with consolidated := true } : Row Emb) else r) = r := if_neg hid
      rw [hr]
      unfold buildMemories
      rw [ih]

theorem rowsMatching_setConsolidated (db : DB Emb) (id : Nat) (t : Option String) :
    rowsMatching (setConsolidated db id) t = (rowsMatching db t).map (fun r =>
      if r.id == id then { r with consolidated := true } else r) := by
  cases t with
  | none => rfl
  | some t =>
    show (db.rows.map _).filter _ = _
    rw [List.filter_map]
    refine congrArg _ (List.filter_congr ?_)
    intro r _
    show ((if r.id == id then { r with consolidated := true } else r).type == t) =
      (r.type == t)
    split <;> rfl

/-- C10: the consolidated flag never affects retrieval — flipping a record's
flag (the UPDATE of `consolidate_memories`) leaves the result of every
`retrieve_relevant` call unchanged, for every query, top-k and type filter. -/
theorem retrieve_ignores_consolidated_flag (sim : Emb → Emb → ℚ)
    (encode : String → Emb) (db : DB Emb) (id : Nat) (q : String) (k : Int)
    (t : Option String) :
    retrieve_relevant sim encode (setConsolidated db id) q k t =
      retrieve_relevant sim encode db q k t := by
  unfold retrieve_relevant
  rw [rowsMatching_setConsolidated, buildMemories_setFlag]

end RetrieveClaims

section StoreMetadataClaim

variable {Emb : Type}

/-- C9: a `store` call with metadata omitted/None persists the record with the
empty dict as metadata, and the public interface never yields a null metadata
value: every `retrieve_relevant` result carries either the empty dict or the
metadata of a pre-existing row, and with a compatible type filter and a large
enough top-k the newly stored record is returned with empty-dict metadata. -/
theorem store_default_metadata_empty (sim : Emb → Emb → ℚ)
    (encode : String → Emb) (now : Int) (c s ty q : String) (k : Int)
    (t : Option String) (db : DB Emb)
    (hdec : ∀ r ∈ db.rows, r.embedding.isSome = true) :
    (∃ nr : Row Emb, (store encode now c s ty none db).rows = db.rows ++ [nr] ∧
      nr.metadata = Metadata.empty ∧ nr.content = c ∧ nr.source = s ∧
      nr.consolidated = false) ∧
    ∃ res, retrieve_relevant sim encode (store encode now c s ty none db) q k t =
        .ok res ∧
      (∀ m ∈ res, m.metadata = Metadata.empty ∨
        ∃ r ∈ db.rows, m.metadata = r.metadata) ∧
      ((t = none ∨ t = some ty) → (db.rows.length : Int) + 1 ≤ k →
        ∃ m ∈ res, m.content = c ∧ m.source = s ∧ m.metadata = Metadata.empty) := by
  set nr : Row Emb :=
    { id := db.nextId, content := c, source := s, timestamp := now,
      metadata := Metadata.empty, embedding := some (encode c), type := ty,
      consolidated := false } with hnr
  have hrows : (store encode now c s ty none db).rows = db.rows ++ [nr] := rfl
  have hdec' : ∀ r ∈ (store encode now c s ty none db).rows,
      r.embedding.isSome = true := by
    intro r hr
    rw [hrows] at hr
    rcases List.mem_append.mp hr with hr | hr
    · exact hdec r hr
    · rcases List.mem_singleton.mp hr with rfl
      rfl
  have hdecm : ∀ r ∈ rowsMatching (store encode now c s ty none db) t,
      r.embedding.isSome = true :=
    fun r hr => hdec' r ((rowsMatching_sublist _ t).subset hr)
  refine ⟨⟨nr, hrows, rfl, rfl, rfl, rfl⟩, _,
    retrieve_relevant_eq_ok sim encode _ q k t hdecm, ?_, ?_⟩
  · intro m hm
    obtain ⟨n, hn⟩ := pySliceTo_eq_take
      (sortDesc (memsTotal sim (encode q) (rowsMatching (store encode now c s ty none db) t))) k
    rw [hn] at hm
    have hm2 := (sortDesc_perm _).mem_iff.mp ((List.take_sublist n _).subset hm)
    obtain ⟨r, hr, e, _, hme⟩ := mem_memsTotal hm2
    have hrdb : r ∈ db.rows ++ [nr] := by
      rw [← hrows]; exact (rowsMatching_sublist _ t).subset hr
    rcases List.mem_append.mp hrdb with hrdb | hrdb
    · exact Or.inr ⟨r, hrdb, by rw [hme]; rfl⟩
    · rcases List.mem_singleton.mp hrdb with rfl
      exact Or.inl (by rw [hme]; rfl)
  · intro ht hk
    have hnrmem : nr ∈ rowsMatching (store encode now c s ty none db) t := by
      rcases ht with rfl | rfl
      · show nr ∈ (store encode now c s ty none db).rows
        rw [hrows]
        exact List.mem_append.mpr (Or.inr (List.mem_singleton.mpr rfl))
      · refine List.mem_filter.mpr ⟨?_, ?_⟩
        · rw [hrows]
          exact List.mem_append.mpr (Or.inr (List.mem_singleton.mpr rfl))
        · exact beq_self_eq_true ty
    have hmm : memOfRow sim (encode q) nr (encode c) ∈
        memsTotal sim (encode q) (rowsMatching (store encode now c s ty none db) t) :=
      memOfRow_mem_memsTotal sim (encode q) hnrmem rfl
    have hms : memOfRow sim (encode q) nr (encode c) ∈
        sortDesc (memsTotal sim (encode q)
          (rowsMatching (store encode now c s ty none db) t)) :=
      (sortDesc_perm _).mem_iff.mpr hmm
    have hlenle : (sortDesc (memsTotal sim (encode q)
        (rowsMatching (store encode now c s ty none db) t))).length ≤ k.toNat := by
      have h1 := (sortDesc_perm (memsTotal sim (encode q)
        (rowsMatching (store encode now c s ty none db) t))).length_eq
      have h2 := memsTotal_length sim (encode q) _ hdecm
      have h3 := (rowsMatching_sublist (store encode now c s ty none db) t).length_le
      have h4 : (store encode now c s ty none db).rows.length = db.rows.length + 1 := by
        rw [hrows, List.length_append, List.length_singleton]
      omega
    have hk0 : (0 : Int) ≤ k := le_trans (by positivity) hk
    have hfull : pySliceTo (sortDesc (memsTotal sim (encode q)
        (rowsMatching (store encode now c s ty none db) t))) k =
        sortDesc (memsTotal sim (encode q)
          (rowsMatching (store encode now c s ty none db) t)) := by
      rw [pySliceTo, if_pos hk0]
      exact List.take_of_length_le hlenle
    rw [hfull]
    exact ⟨memOfRow sim (encode q) nr (encode c), hms, rfl, rfl, rfl⟩

end StoreMetadataClaim

section GroupingLemmas

variable {Emb : Type}

theorem grpAux_flatten_perm (sim : Emb → Emb → ℚ) (thr : ℚ) :
    ∀ (fuel : Nat) (ms : List (MemRec Emb)), ms.length ≤ fuel →
      ((consolidateGroupsAux sim thr fuel ms).flatten).Perm ms := by
  intro fuel
  induction fuel with
  | zero =>
    intro ms hle
    rw [List.length_eq_zero.mp (Nat.le_zero.mp hle)]
    simp [consolidateGroupsAux]
  | succ fuel ih =>
    intro ms hle
    cases ms with
    | nil => simp [consolidateGroupsAux]
    | cons seed rest =>
      have hrest : rest.length ≤ fuel := Nat.lt_succ_iff.mp
        (lt_of_lt_of_le (by simp) hle)
      have hun : (rest.filter (fun m => !decide (thr ≤ sim seed.emb m.emb))).length
          ≤ fuel := le_trans (List.length_filter_le _ _) hrest
      show ((seed :: rest.filter (fun m => decide (thr ≤ sim seed.emb m.emb)))
          :: consolidateGroupsAux sim thr fuel
            (rest.filter (fun m => !decide (thr ≤ sim seed.emb m.emb)))).flatten.Perm
        (seed :: rest)
      rw [List.flatten_cons, List.cons_append]
      refine List.Perm.cons seed ?_
      refine List.Perm.trans (List.Perm.append_left _ (ih _ hun)) ?_
      exact List.filter_append_perm _ rest

theorem grpAux_flatten_subset (sim : Emb → Emb → ℚ) (thr : ℚ)
    {fuel : Nat} {ms : List (MemRec Emb)} (hle : ms.length ≤ fuel)
    {r : MemRec Emb} {g : List (MemRec Emb)}
    (hg : g ∈ consolidateGroupsAux sim thr fuel ms) (hr : r ∈ g) : r ∈ ms :=
  (grpAux_flatten_perm sim thr fuel ms hle).mem_iff.mp
    (List.mem_flatten.mpr ⟨g, hg, hr⟩)

theorem grpAux_nonempty (sim : Emb → Emb → ℚ) (thr : ℚ) :
    ∀ (fuel : Nat) (ms : List (MemRec Emb)),
      ∀ g ∈ consolidateGroupsAux sim thr fuel ms, ∃ s tl, g = s :: tl := by
  intro fuel
  induction fuel with
  | zero =>
    intro ms g hg
    cases ms <;> simp [consolidateGroupsAux] at hg
  | succ fuel ih =>
    intro ms g hg
    cases ms with
    | nil => simp [consolidateGroupsAux] at hg
    | cons seed rest =>
      rcases List.mem_cons.mp hg with rfl | hg
      · exact ⟨seed, _, rfl⟩
      · exact ih _ g hg

theorem grpAux_drop_char (sim : Emb → Emb → ℚ) (thr : ℚ) :
    ∀ (fuel : Nat) (ms : List (MemRec Emb)) (k : Nat) (s : MemRec Emb)
      (tl : List (MemRec Emb)) (gs' : List (List (MemRec Emb))),
      ms.length ≤ fuel →
      (consolidateGroupsAux sim thr fuel ms).drop k = (s :: tl) :: gs' →
      (∀ m ∈ tl, thr ≤ sim s.emb m.emb) ∧
      (∀ g ∈ gs', ∀ r ∈ g, sim s.emb r.emb < thr) := by
  intro fuel
  induction fuel with
  | zero =>
    intro ms k s tl gs' hle hdrop
    rw [List.length_eq_zero.mp (Nat.le_zero.mp hle)] at hdrop
    simp [consolidateGroupsAux] at hdrop
  | succ fuel ih =>
    intro ms k s tl gs' hle hdrop
    cases ms with
    | nil => simp [consolidateGroupsAux] at hdrop
    | cons seed rest =>
      have hrest : rest.length ≤ fuel := Nat.lt_succ_iff.mp
        (lt_of_lt_of_le (by simp) hle)
      have hun : (rest.filter (fun m => !decide (thr ≤ sim seed.emb m.emb))).length
          ≤ fuel := le_trans (List.length_filter_le _ _) hrest
      cases k with
      | zero =>
        rw [List.drop_zero] at hdrop
        have hdrop' : (seed :: rest.filter (fun m => decide (thr ≤ sim seed.emb m.emb)))
            :: consolidateGroupsAux sim thr fuel
              (rest.filter (fun m => !decide (thr ≤ sim seed.emb m.emb))) =
            (s :: tl) :: gs' := hdrop
        obtain ⟨hhead, htail⟩ := List.cons_eq_cons.mp hdrop'
        obtain ⟨hs, htl⟩ := List.cons_eq_cons.mp hhead
        subst hs; subst htl; subst htail
        constructor
        · intro m hm
          have := List.of_mem_filter hm
          exact of_decide_eq_true this
        · intro g hg r hr
          have hrm := grpAux_flatten_subset sim thr hun hg hr
          have hfil := List.of_mem_filter hrm
          rw [Bool.not_eq_true', decide_eq_false_iff_not] at hfil
          exact lt_of_not_le hfil
      | succ k =>
        have hdrop' : (consolidateGroupsAux sim thr fuel
            (rest.filter (fun m => !decide (thr ≤ sim seed.emb m.emb)))).drop k =
            (s :: tl) :: gs' := hdrop
        exact ih _ k s tl gs' hun hdrop'

/-- C3: the grouping pass is greedy, seed-based and deterministic.  The groups
together cover the eligible records exactly once (their concatenation is a
permutation of the scan list, so they are pairwise disjoint); every group is
nonempty with its seed at the head; every non-seed member joined because its
similarity against the seed reached the threshold; and every record that ends
up in a later group was below the threshold against this seed (it did not
join, even if it was similar to some other member). -/
theorem consolidation_grouping_seeded (sim : Emb → Emb → ℚ) (thr : ℚ)
    (ms : List (MemRec Emb)) (hnodup : ms.Nodup) :
    ((consolidateGroups sim thr ms).flatten).Perm ms ∧
    List.Pairwise List.Disjoint (consolidateGroups sim thr ms) ∧
    (∀ g ∈ consolidateGroups sim thr ms, ∃ s tl, g = s :: tl) ∧
    (∀ (k : Nat) (s : MemRec Emb) (tl : List (MemRec Emb))
        (gs' : List (List (MemRec Emb))),
      (consolidateGroups sim thr ms).drop k = (s :: tl) :: gs' →
      (∀ m ∈ tl, thr ≤ sim s.emb m.emb) ∧
      (∀ g ∈ gs', ∀ r ∈ g, sim s.emb r.emb < thr)) := by
  have hperm := grpAux_flatten_perm sim thr ms.length ms (le_refl _)
  refine ⟨hperm, ?_, ?_, ?_⟩
  · have hnd : ((consolidateGroups sim thr ms).flatten).Nodup :=
      hperm.nodup_iff.mpr hnodup
    exact (List.nodup_flatten.mp hnd).2
  · exact grpAux_nonempty sim thr ms.length ms
  · intro k s tl gs' hdrop
    exact grpAux_drop_char sim thr ms.length ms k s tl gs' (le_refl _) hdrop

end GroupingLemmas

section ExecLemmas

variable {Emb : Type}

theorem loadEligible_eq_some (rows : List (Row Emb))
    (h : ∀ r ∈ rows, r.embedding.isSome = true) :
    loadEligible rows = some (recsOf rows) := by
  induction rows with
  | nil => rfl
  | cons r rest ih =>
    obtain ⟨e, he⟩ := Option.isSome_iff_exists.mp (h r (List.mem_cons_self r rest))
    have ih' := ih (fun x hx => h x (List.mem_cons_of_mem r hx))
    unfold loadEligible
    rw [he, ih']
    simp [recsOf, List.filterMap_cons, he]

theorem mem_recsOf {rows : List (Row Emb)} {m : MemRec Emb}
    (hm : m ∈ recsOf rows) :
    ∃ r ∈ rows, r.id = m.id ∧ r.content = m.content ∧ r.embedding = some m.emb := by
  obtain ⟨r, hr, hmap⟩ := List.mem_filterMap.mp hm
  cases he : r.embedding with
  | none => rw [he] at hmap; exact absurd hmap (by simp)
  | some e =>
    rw [he] at hmap
    simp only [Option.map_some', Option.some.injEq] at hmap
    refine ⟨r, hr, ?_, ?_, ?_⟩ <;> rw [← hmap]
    exact he

/-- The sequence of `self.store(...)` commits performed by a consolidation
run, one per finalized group, in group order. -/
def storesOf (encode : String → Emb) (now : Int)
    (groups : List (List (MemRec Emb))) (db : DB Emb) : DB Emb :=
  groups.foldl (fun d g =>
    store encode now (combineContents g) "memory_consolidation" "semantic"
      (some (Metadata.consolidatedFrom (g.map (fun m => m.id)))) d) db

theorem foldl_flagSteps_noop (encode : String → Emb) (now : Int)
    (l : List (MemRec Emb)) (d : DB Emb) :
    (l.map (fun m => CStep.flagSource m.id)).foldl (storeStepEffect encode now) d
      = d := by
  induction l generalizing d with
  | nil => rfl
  | cons m l ih => exact ih d

theorem execStores_consolidationSteps (encode : String → Emb) (now : Int)
    (groups : List (List (MemRec Emb))) (db : DB Emb) :
    execStores encode now (consolidationSteps groups) db =
      storesOf encode now groups db := by
  induction groups generalizing db with
  | nil => rfl
  | cons g gs ih =>
    show execStores encode now (consolidationSteps (g :: gs)) db = _
    rw [consolidationSteps, List.flatMap_cons]
    unfold execStores
    rw [List.foldl_append, List.foldl_cons, foldl_flagSteps_noop]
    exact ih _

theorem storesOf_decomp (encode : String → Emb) (now : Int)
    (groups : List (List (MemRec Emb))) (db : DB Emb) :
    ∃ news, (storesOf encode now groups db).rows = db.rows ++ news ∧
      news.map (fun r => (r.type, r.metadata, r.content)) =
        groups.map (fun g => ("semantic",
          Metadata.consolidatedFrom (g.map (fun m => m.id)), combineContents g)) ∧
      (∀ r ∈ news, db.nextId ≤ r.id) ∧
      db.nextId ≤ (storesOf encode now groups db).nextId := by
  induction groups generalizing db with
  | nil => exact ⟨[], by simp [storesOf], by simp, by simp, le_refl _⟩
  | cons g gs ih =>
    have hstep : storesOf encode now (g :: gs) db =
        storesOf encode now gs
          (store encode now (combineContents g) "memory_consolidation" "semantic"
            (some (Metadata.consolidatedFrom (g.map (fun m => m.id)))) db) := rfl
    obtain ⟨news, hrows, hmap, hids, hnext⟩ := ih
      (store encode now (combineContents g) "memory_consolidation" "semantic"
        (some (Metadata.consolidatedFrom (g.map (fun m => m.id)))) db)
    let nrg : Row Emb :=
      { id := db.nextId, content := combineContents g,
        source := "memory_consolidation", timestamp := now,
        metadata := Metadata.consolidatedFrom (g.map (fun m => m.id)),
        embedding := some (encode (combineContents g)), type := "semantic",
        consolidated := false }
    refine ⟨nrg :: news, ?_, ?_, ?_, ?_⟩
    · rw [hstep, hrows]
      show (db.rows ++ [_]) ++ news = _
      rw [List.append_assoc]
      rfl
    · simp only [List.map_cons, hmap]
    · intro r hr
      rcases List.mem_cons.mp hr with rfl | hr
      · exact le_refl _
      · exact le_trans (Nat.le_succ _) (hids r hr)
    · rw [hstep]
      exact le_trans (Nat.le_succ _) hnext

theorem flaggedIds_consolidationSteps (groups : List (List (MemRec Emb))) :
    flaggedIds (consolidationSteps groups) =
      groups.flatMap (fun g => g.map (fun m => m.id)) := by
  induction groups with
  | nil => rfl
  | cons g gs ih =>
    rw [consolidationSteps, List.flatMap_cons, List.flatMap_cons]
    unfold flaggedIds
    rw [List.filterMap_append, List.filterMap_cons]
    have hflags : (g.map (fun m => CStep.flagSource m.id)).filterMap (fun s =>
        match s with
        | .flagSource i => some i
        | _ => none) = g.map (fun m => m.id) := by
      induction g with
      | nil => rfl
      | cons m g ihg => simp only [List.map_cons, List.filterMap_cons, ihg]
    simp only [hflags]
    show _ ++ flaggedIds (consolidationSteps gs) = _
    rw [ih]

theorem flagIfIn_id (ids : List Nat) (r : Row Emb) : (flagIfIn ids r).id = r.id := by
  unfold flagIfIn; split <;> rfl

theorem foldl_setConsolidated_decomp :
    ∀ (ids : List Nat) (db : DB Emb),
      (ids.foldl setConsolidated db).rows = db.rows.map (flagIfIn ids) ∧
      (ids.foldl setConsolidated db).nextId = db.nextId := by
  intro ids
  induction ids with
  | nil =>
    intro db
    constructor
    · rw [List.foldl_nil]
      have h1 : ∀ r ∈ db.rows, r = flagIfIn [] r := by
        intro r _
        unfold flagIfIn
        rw [if_neg (List.not_mem_nil _)]
      exact (List.map_congr_left h1).trans (List.map_id _) |>.symm |>.trans rfl
    · rfl
  | cons i ids ih =>
    intro db
    rw [List.foldl_cons]
    obtain ⟨hrows, hnext⟩ := ih (setConsolidated db i)
    constructor
    · rw [hrows]
      show (db.rows.map _).map _ = _
      rw [List.map_map]
      refine List.map_congr_left ?_
      intro r _
      show flagIfIn ids (if r.id == i then { r with consolidated := true } else r) =
        flagIfIn (i :: ids) r
      by_cases hid : r.id = i
      · rw [if_pos (beq_iff_eq.mpr hid)]
        unfold flagIfIn
        rw [if_pos (List.mem_cons.mpr (Or.inl hid))]
        split <;> rfl
      · rw [if_neg (by simpa using hid)]
        unfold flagIfIn
        by_cases hmem : r.id ∈ ids
        · rw [if_pos hmem, if_pos (List.mem_cons.mpr (Or.inr hmem))]
        · rw [if_neg hmem, if_neg (by
            intro hcon
            rcases List.mem_cons.mp hcon with h | h
            · exact hid h
            · exact hmem h)]
    · rw [hnext]; rfl

theorem flagIfIn_flagged {ids : List Nat} {r : Row Emb} (h : r.id ∈ ids) :
    (flagIfIn ids r).consolidated = true := by
  unfold flagIfIn
  rw [if_pos h]

theorem flagIfIn_not_flagged {ids : List Nat} {r : Row Emb} (h : r.id ∉ ids) :
    flagIfIn ids r = r := by
  unfold flagIfIn
  rw [if_neg h]

end ExecLemmas

section ConsolidateClaims

variable {Emb : Type}

theorem grpAux_all_singletons (sim : Emb → Emb → ℚ) (thr : ℚ) :
    ∀ (fuel : Nat) (ms : List (MemRec Emb)), ms.length ≤ fuel →
      ms.Pairwise (fun a b => sim a.emb b.emb < thr) →
      consolidateGroupsAux sim thr fuel ms = ms.map (fun m => [m]) := by
  intro fuel
  induction fuel with
  | zero =>
    intro ms hle _
    rw [List.length_eq_zero.mp (Nat.le_zero.mp hle)]
    rfl
  | succ fuel ih =>
    intro ms hle hpair
    cases ms with
    | nil => rfl
    | cons seed rest =>
      obtain ⟨hseed, hrest⟩ := List.pairwise_cons.mp hpair
      have hmatched : rest.filter (fun m => decide (thr ≤ sim seed.emb m.emb)) = [] := by
        rw [List.filter_eq_nil_iff]
        intro m hm
        simp only [decide_eq_true_eq]
        exact not_le.mpr (hseed m hm)
      have hunmatched : rest.filter (fun m => !decide (thr ≤ sim seed.emb m.emb)) = rest := by
        rw [List.filter_eq_self]
        intro m hm
        simp only [Bool.not_eq_true', decide_eq_false_iff_not]
        exact not_le.mpr (hseed m hm)
      show (seed :: rest.filter (fun m => decide (thr ≤ sim seed.emb m.emb)))
          :: consolidateGroupsAux sim thr fuel
            (rest.filter (fun m => !decide (thr ≤ sim seed.emb m.emb))) = _
      rw [hmatched, hunmatched,
        ih rest (Nat.lt_succ_iff.mp (lt_of_lt_of_le (by simp) hle)) hrest]
      rfl

theorem finalizedGroups_of_dissimilar (sim : Emb → Emb → ℚ) (thr : ℚ)
    (ms : List (MemRec Emb))
    (hdis : ms.Pairwise (fun a b => sim a.emb b.emb < thr)) :
    finalizedGroups sim thr ms = [] := by
  unfold finalizedGroups consolidateGroups
  rw [grpAux_all_singletons sim thr ms.length ms (le_refl _) hdis]
  rw [List.filter_eq_nil_iff]
  intro g hg
  obtain ⟨m, _, rfl⟩ := List.mem_map.mp hg
  simp

theorem consolidate_of_no_groups (sim : Emb → Emb → ℚ) (encode : String → Emb)
    (now tth : Int) (thr : ℚ) (fuse : Option Nat) (db : DB Emb)
    (hdec : ∀ r ∈ eligibleRows db (now - tth), r.embedding.isSome = true)
    (hgl : finalizedGroups sim thr (recsOf (eligibleRows db (now - tth))) = []) :
    consolidate_memories sim encode now tth thr fuse db = (db, true) := by
  unfold consolidate_memories
  simp only []
  rw [loadEligible_eq_some _ hdec]
  show (if (recsOf (eligibleRows db (now - tth))).isEmpty then (db, true)
    else _) = (db, true)
  by_cases hemp : (recsOf (eligibleRows db (now - tth))).isEmpty
  · rw [if_pos hemp]
  · rw [if_neg hemp]
    simp only [hgl]
    cases fuse with
    | none => rfl
    | some k =>
      show (if k < (consolidationSteps ([] : List (List (MemRec Emb)))).length
        then _ else (execAll encode now (consolidationSteps
          ([] : List (List (MemRec Emb)))) db, true)) = (db, true)
      rw [if_neg (by simp [consolidationSteps])]
      rfl

/-- C7: a group with exactly one member is discarded (only groups of two or
more records are finalized), and consequently on a store whose eligible
records are pairwise dissimilar a consolidation run — with or without an
injected failure — changes nothing: no semantic record is created and no
consolidated flag is flipped. -/
theorem consolidate_singletons_no_effect (sim : Emb → Emb → ℚ)
    (encode : String → Emb) (now tth : Int) (thr : ℚ) (fuse : Option Nat)
    (db : DB Emb)
    (hdec : ∀ r ∈ eligibleRows db (now - tth), r.embedding.isSome = true)
    (hdis : (recsOf (eligibleRows db (now - tth))).Pairwise
      (fun a b => sim a.emb b.emb < thr)) :
    (∀ (ms : List (MemRec Emb)) (g : List (MemRec Emb)),
      g ∈ finalizedGroups sim thr ms → 2 ≤ g.length) ∧
    consolidate_memories sim encode now tth thr fuse db = (db, true) := by
  constructor
  · intro ms g hg
    have := List.of_mem_filter hg
    simp only [decide_eq_true_eq] at this
    omega
  · exact consolidate_of_no_groups sim encode now tth thr fuse db hdec
      (finalizedGroups_of_dissimilar sim thr _ hdis)

/-- C2: on a successful run (no failure injected, decodable store), every
finalized group has at least two members; the rows appended by the run are
exactly one semantic record per finalized group, in group order, whose
`consolidated_from` metadata lists exactly that group's source ids; and every
source record of every finalized group ends up with `consolidated = true`. -/
theorem consolidation_provenance (sim : Emb → Emb → ℚ) (encode : String → Emb)
    (now tth : Int) (thr : ℚ) (db : DB Emb) (hwf : db.WF)
    (hdec : ∀ r ∈ db.rows, r.embedding.isSome = true) :
    (consolidate_memories sim encode now tth thr none db).2 = true ∧
    (∀ g ∈ finalizedGroups sim thr (recsOf (eligibleRows db (now - tth))),
      2 ≤ g.length) ∧
    ((consolidate_memories sim encode now tth thr none db).1.rows.drop
        db.rows.length).map (fun r => (r.type, r.metadata, r.content)) =
      (finalizedGroups sim thr (recsOf (eligibleRows db (now - tth)))).map
        (fun g => ("semantic",
          Metadata.consolidatedFrom (g.map (fun m => m.id)), combineContents g)) ∧
    (∀ g ∈ finalizedGroups sim thr (recsOf (eligibleRows db (now - tth))),
      ∀ m ∈ g, ∃ r ∈ (consolidate_memories sim encode now tth thr none db).1.rows,
        r.id = m.id ∧ r.consolidated = true) := by
  have hdecel : ∀ r ∈ eligibleRows db (now - tth), r.embedding.isSome = true :=
    fun r hr => hdec r (List.filter_sublist _ |>.subset hr)
  have hlen2 : ∀ g ∈ finalizedGroups sim thr (recsOf (eligibleRows db (now - tth))),
      2 ≤ g.length := by
    intro g hg
    have := List.of_mem_filter hg
    simp only [decide_eq_true_eq] at this
    omega
  -- the committed state of a successful run
  have hrun : consolidate_memories sim encode now tth thr none db =
      ((flaggedIds (consolidationSteps (finalizedGroups sim thr
          (recsOf (eligibleRows db (now - tth)))))).foldl setConsolidated
        (execStores encode now (consolidationSteps (finalizedGroups sim thr
          (recsOf (eligibleRows db (now - tth))))) db), true) ∨
      (consolidate_memories sim encode now tth thr none db = (db, true) ∧
        finalizedGroups sim thr (recsOf (eligibleRows db (now - tth))) = []) := by
    unfold consolidate_memories
    simp only []
    rw [loadEligible_eq_some _ hdecel]
    by_cases hemp : (recsOf (eligibleRows db (now - tth))).isEmpty
    · refine Or.inr ⟨?_, ?_⟩
      · show (if (recsOf (eligibleRows db (now - tth))).isEmpty then (db, true)
          else _) = (db, true)
        rw [if_pos hemp]
      · rw [List.isEmpty_iff.mp hemp]
        rfl
    · refine Or.inl ?_
      show (if (recsOf (eligibleRows db (now - tth))).isEmpty then (db, true)
        else _) = _
      rw [if_neg hemp]
      rfl
  rcases hrun with hrun | ⟨hrun, hgl⟩
  · -- normal successful execution
    obtain ⟨news, hsrows, hsmap, hsids, _⟩ := storesOf_decomp encode now
      (finalizedGroups sim thr (recsOf (eligibleRows db (now - tth)))) db
    obtain ⟨hfrows, _⟩ := foldl_setConsolidated_decomp
      (flaggedIds (consolidationSteps (finalizedGroups sim thr
        (recsOf (eligibleRows db (now - tth))))))
      (execStores encode now (consolidationSteps (finalizedGroups sim thr
        (recsOf (eligibleRows db (now - tth))))) db)
    have hallids : ∀ i ∈ flaggedIds (consolidationSteps (finalizedGroups sim thr
        (recsOf (eligibleRows db (now - tth))))), i < db.nextId := by
      intro i hi
      rw [flaggedIds_consolidationSteps] at hi
      obtain ⟨g, hg, hig⟩ := List.mem_flatMap.mp hi
      obtain ⟨m, hm, rfl⟩ := List.mem_map.mp hig
      have hgmem : g ∈ consolidateGroups sim thr
          (recsOf (eligibleRows db (now - tth))) := List.mem_of_mem_filter hg
      have hmrec : m ∈ recsOf (eligibleRows db (now - tth)) :=
        grpAux_flatten_subset sim thr (le_refl _) hgmem hm
      obtain ⟨r, hr, hrid, _, _⟩ := mem_recsOf hmrec
      have hrdb : r ∈ db.rows := List.filter_sublist _ |>.subset hr
      rw [← hrid]
      exact hwf.2 r hrdb
    have hrows : (consolidate_memories sim encode now tth thr none db).1.rows =
        db.rows.map (flagIfIn (flaggedIds (consolidationSteps (finalizedGroups sim thr
          (recsOf (eligibleRows db (now - tth))))))) ++ news := by
      rw [hrun]
      show ((flaggedIds _).foldl setConsolidated _).rows = _
      rw [hfrows, execStores_consolidationSteps, hsrows, List.map_append]
      congr 1
      refine List.map_congr_left ?_ |>.trans (List.map_id _)
      intro r hr
      refine flagIfIn_not_flagged ?_
      intro hcon
      exact absurd (hsids r hr) (not_le.mpr (hallids _ hcon))
    refine ⟨by rw [hrun], hlen2, ?_, ?_⟩
    · rw [hrows]
      rw [show db.rows.length = (db.rows.map (flagIfIn (flaggedIds (consolidationSteps
          (finalizedGroups sim thr (recsOf (eligibleRows db (now - tth)))))))).length
        from by simp]
      rw [List.drop_left]
      exact hsmap
    · intro g hg m hm
      have hgmem : g ∈ consolidateGroups sim thr
          (recsOf (eligibleRows db (now - tth))) := List.mem_of_mem_filter hg
      have hmrec : m ∈ recsOf (eligibleRows db (now - tth)) :=
        grpAux_flatten_subset sim thr (le_refl _) hgmem hm
      obtain ⟨r, hr, hrid, _, _⟩ := mem_recsOf hmrec
      have hrdb : r ∈ db.rows := List.filter_sublist _ |>.subset hr
      have hmm : m.id ∈ flaggedIds (consolidationSteps (finalizedGroups sim thr
          (recsOf (eligibleRows db (now - tth))))) := by
        rw [flaggedIds_consolidationSteps]
        exact List.mem_flatMap.mpr ⟨g, hg, List.mem_map.mpr ⟨m, hm, rfl⟩⟩
      refine ⟨flagIfIn (flaggedIds (consolidationSteps (finalizedGroups sim thr
          (recsOf (eligibleRows db (now - tth)))))) r, ?_, ?_, ?_⟩
      · rw [hrows]
        exact List.mem_append.mpr (Or.inl (List.mem_map.mpr ⟨r, hrdb, rfl⟩))
      · rw [flagIfIn_id, hrid]
      · exact flagIfIn_flagged (by rw [hrid]; exact hmm)
  · -- empty eligible set: nothing happens and there are no groups
    refine ⟨by rw [hrun], hlen2, ?_, ?_⟩
    · rw [hrun, hgl]
      simp
    · intro g hg
      rw [hgl] at hg
      exact absurd hg (List.not_mem_nil g)

end ConsolidateClaims

section EvolutionLemmas

variable {Emb : Type}

theorem RowEvolves_refl (r : Row Emb) : RowEvolves r r :=
  ⟨rfl, rfl, rfl, rfl, rfl, rfl, rfl, fun h => h⟩

theorem RowEvolves_trans {r₀ r₁ r₂ : Row Emb} (h₀ : RowEvolves r₀ r₁)
    (h₁ : RowEvolves r₁ r₂) : RowEvolves r₀ r₂ := by
  obtain ⟨a0, b0, c0, d0, e0, f0, g0, m0⟩ := h₀
  obtain ⟨a1, b1, c1, d1, e1, f1, g1, m1⟩ := h₁
  exact ⟨a1.trans a0, b1.trans b0, c1.trans c0, d1.trans d0, e1.trans e0,
    f1.trans f0, g1.trans g0, fun h => m1 (m0 h)⟩

theorem RowEvolves_flagIfIn (ids : List Nat) (r : Row Emb) :
    RowEvolves r (flagIfIn ids r) := by
  unfold flagIfIn
  split
  · exact ⟨rfl, rfl, rfl, rfl, rfl, rfl, rfl, fun _ => rfl⟩
  · exact RowEvolves_refl r

theorem map_flagIfIn_nil (l : List (Row Emb)) : l.map (flagIfIn []) = l := by
  refine (List.map_congr_left ?_).trans (List.map_id l)
  intro r _
  exact flagIfIn_not_flagged (List.not_mem_nil _)

theorem execStores_decomp (encode : String → Emb) (now : Int) :
    ∀ (steps : List CStep) (db : DB Emb),
      ∃ news, (execStores encode now steps db).rows = db.rows ++ news ∧
        (∀ r ∈ news, db.nextId ≤ r.id) ∧
        db.nextId ≤ (execStores encode now steps db).nextId := by
  intro steps
  induction steps with
  | nil => exact fun db => ⟨[], by simp [execStores], by simp, le_refl _⟩
  | cons c steps ih =>
    intro db
    have hrec : execStores encode now (c :: steps) db =
        execStores encode now steps (storeStepEffect encode now db c) := rfl
    cases c with
    | flagSource i =>
      rw [hrec]
      exact ih db
    | storeSemantic ct ids =>
      rw [hrec]
      obtain ⟨news, hrows, hids, hnext⟩ := ih (storeStepEffect encode now db
        (CStep.storeSemantic ct ids))
      let nrst : Row Emb :=
        { id := db.nextId, content := ct, source := "memory_consolidation",
          timestamp := now, metadata := Metadata.consolidatedFrom ids,
          embedding := some (encode ct), type := "semantic",
          consolidated := false }
      refine ⟨nrst :: news, ?_, ?_, ?_⟩
      · rw [hrows]
        show (db.rows ++ [nrst]) ++ news = db.rows ++ (nrst :: news)
        rw [List.append_assoc]
        rfl
      · intro r hr
        rcases List.mem_cons.mp hr with rfl | hr
        · exact le_refl _
        · exact le_trans (Nat.le_succ _) (hids r hr)
      · exact le_trans (Nat.le_succ _) hnext

theorem execAll_decomp (encode : String → Emb) (now : Int) (steps : List CStep)
    (db : DB Emb) :
    ∃ ids news, (execAll encode now steps db).rows =
        db.rows.map (flagIfIn ids) ++ news ∧
      (∀ r ∈ news, db.nextId ≤ r.id) ∧
      db.nextId ≤ (execAll encode now steps db).nextId := by
  obtain ⟨news, hrows, hids, hnext⟩ := execStores_decomp encode now steps db
  obtain ⟨hfrows, hfnext⟩ := foldl_setConsolidated_decomp (flaggedIds steps)
    (execStores encode now steps db)
  refine ⟨flaggedIds steps, news.map (flagIfIn (flaggedIds steps)), ?_, ?_, ?_⟩
  · show ((flaggedIds steps).foldl setConsolidated _).rows = _
    rw [hfrows, hrows, List.map_append]
  · intro r hr
    obtain ⟨r₀, hr₀, rfl⟩ := List.mem_map.mp hr
    rw [flagIfIn_id]
    exact hids r₀ hr₀
  · show db.nextId ≤ ((flaggedIds steps).foldl setConsolidated _).nextId
    rw [hfnext]
    exact hnext

theorem consolidate_decomp (sim : Emb → Emb → ℚ) (encode : String → Emb)
    (now tth : Int) (thr : ℚ) (fuse : Option Nat) (db : DB Emb) :
    ∃ ids news, (consolidate_memories sim encode now tth thr fuse db).1.rows =
        db.rows.map (flagIfIn ids) ++ news ∧
      (∀ r ∈ news, db.nextId ≤ r.id) ∧
      db.nextId ≤ (consolidate_memories sim encode now tth thr fuse db).1.nextId := by
  have hid : ∀ d : DB Emb, d = db →
      ∃ ids news, d.rows = db.rows.map (flagIfIn ids) ++ news ∧
        (∀ r ∈ news, db.nextId ≤ r.id) ∧ db.nextId ≤ d.nextId := by
    rintro d rfl
    exact ⟨[], [], by rw [map_flagIfIn_nil, List.append_nil], by simp, le_refl _⟩
  cases hload : loadEligible (eligibleRows db (now - tth)) with
  | none =>
    have hres : consolidate_memories sim encode now tth thr fuse db = (db, false) := by
      unfold consolidate_memories
      simp only []
      rw [hload]
    rw [hres]
    exact hid db rfl
  | some ms =>
    by_cases hemp : ms.isEmpty
    · have hres : consolidate_memories sim encode now tth thr fuse db = (db, true) := by
        unfold consolidate_memories
        simp only []
        rw [hload]
        show (if ms.isEmpty then (db, true) else _) = (db, true)
        rw [if_pos hemp]
      rw [hres]
      exact hid db rfl
    · cases fuse with
      | none =>
        have hres : consolidate_memories sim encode now tth thr none db =
            (execAll encode now (consolidationSteps (finalizedGroups sim thr ms)) db,
              true) := by
          unfold consolidate_memories
          simp only []
          rw [hload]
          show (if ms.isEmpty then (db, true) else _) = _
          rw [if_neg hemp]
        rw [hres]
        exact execAll_decomp encode now _ db
      | some k =>
        by_cases hk : k < (consolidationSteps (finalizedGroups sim thr ms)).length
        · have hres : consolidate_memories sim encode now tth thr (some k) db =
              (execStores encode now
                ((consolidationSteps (finalizedGroups sim thr ms)).take k) db,
                false) := by
            unfold consolidate_memories
            simp only []
            rw [hload]
            show (if ms.isEmpty then (db, true) else _) = _
            rw [if_neg hemp]
            show (if k < (consolidationSteps (finalizedGroups sim thr ms)).length
              then (execStores encode now
                ((consolidationSteps (finalizedGroups sim thr ms)).take k) db, false)
              else _) = _
            rw [if_pos hk]
          rw [hres]
          obtain ⟨news, hrows, hids, hnext⟩ := execStores_decomp encode now
            ((consolidationSteps (finalizedGroups sim thr ms)).take k) db
          exact ⟨[], news, by rw [map_flagIfIn_nil]; exact hrows, hids, hnext⟩
        · have hres : consolidate_memories sim encode now tth thr (some k) db =
              (execAll encode now (consolidationSteps (finalizedGroups sim thr ms)) db,
                true) := by
            unfold consolidate_memories
            simp only []
            rw [hload]
            show (if ms.isEmpty then (db, true) else _) = _
            rw [if_neg hemp]
            show (if k < (consolidationSteps (finalizedGroups sim thr ms)).length
              then _
              else (execAll encode now
                (consolidationSteps (finalizedGroups sim thr ms)) db, true)) = _
            rw [if_neg hk]
          rw [hres]
          exact execAll_decomp encode now _ db

theorem stepOp_evolve (sim : Emb → Emb → ℚ) (encode : String → Emb) (op : Op)
    (db : DB Emb) :
    db.nextId ≤ (stepOp sim encode db op).nextId ∧
    ∀ r' ∈ (stepOp sim encode db op).rows,
      (∃ r ∈ db.rows, r.id = r'.id ∧ RowEvolves r r') ∨ db.nextId ≤ r'.id := by
  cases op with
  | storeOp now c s ty md =>
    constructor
    · exact Nat.le_succ _
    · intro r' hr'
      rcases List.mem_append.mp hr' with hr' | hr'
      · exact Or.inl ⟨r', hr', rfl, RowEvolves_refl r'⟩
      · rcases List.mem_singleton.mp hr' with rfl
        exact Or.inr (le_refl _)
  | retrieveOp q k t =>
    exact ⟨le_refl _, fun r' hr' => Or.inl ⟨r', hr', rfl, RowEvolves_refl r'⟩⟩
  | clearOp =>
    exact ⟨le_refl _, fun r' hr' => absurd hr' (List.not_mem_nil r')⟩
  | consolidateOp now tth thr fuse =>
    obtain ⟨ids, news, hrows, hids, hnext⟩ :=
      consolidate_decomp sim encode now tth thr fuse db
    refine ⟨hnext, ?_⟩
    intro r' hr'
    have hr'2 : r' ∈ (consolidate_memories sim encode now tth thr fuse db).1.rows := hr'
    rw [hrows] at hr'2
    rcases List.mem_append.mp hr'2 with hr'2 | hr'2
    · obtain ⟨r, hr, rfl⟩ := List.mem_map.mp hr'2
      exact Or.inl ⟨r, hr, (flagIfIn_id ids r).symm, RowEvolves_flagIfIn ids r⟩
    · exact Or.inr (hids r' hr'2)

theorem stepOp_survive (sim : Emb → Emb → ℚ) (encode : String → Emb) {op : Op}
    (hop : op ≠ Op.clearOp) (db : DB Emb) :
    ∀ r ∈ db.rows, ∃ r' ∈ (stepOp sim encode db op).rows, r'.id = r.id := by
  intro r hr
  cases op with
  | storeOp now c s ty md =>
    exact ⟨r, List.mem_append.mpr (Or.inl hr), rfl⟩
  | retrieveOp q k t => exact ⟨r, hr, rfl⟩
  | clearOp => exact absurd rfl hop
  | consolidateOp now tth thr fuse =>
    obtain ⟨ids, news, hrows, _, _⟩ :=
      consolidate_decomp sim encode now tth thr fuse db
    refine ⟨flagIfIn ids r, ?_, flagIfIn_id ids r⟩
    show flagIfIn ids r ∈ (consolidate_memories sim encode now tth thr fuse db).1.rows
    rw [hrows]
    exact List.mem_append.mpr (Or.inl (List.mem_map.mpr ⟨r, hr, rfl⟩))

theorem runOps_evolve (sim : Emb → Emb → ℚ) (encode : String → Emb) :
    ∀ (ops : List Op) (db : DB Emb),
      db.nextId ≤ (runOps sim encode ops db).nextId ∧
      ∀ r' ∈ (runOps sim encode ops db).rows,
        (∃ r ∈ db.rows, r.id = r'.id ∧ RowEvolves r r') ∨ db.nextId ≤ r'.id := by
  intro ops
  induction ops with
  | nil =>
    exact fun db => ⟨le_refl _, fun r' hr' =>
      Or.inl ⟨r', hr', rfl, RowEvolves_refl r'⟩⟩
  | cons op ops ih =>
    intro db
    have hstep := stepOp_evolve sim encode op db
    have hrun := ih (stepOp sim encode db op)
    have hrw : runOps sim encode (op :: ops) db =
        runOps sim encode ops (stepOp sim encode db op) := rfl
    rw [hrw]
    constructor
    · exact le_trans hstep.1 hrun.1
    · intro r' hr'
      rcases hrun.2 r' hr' with ⟨r₁, hr₁, hid₁, hev₁⟩ | hfresh
      · rcases hstep.2 r₁ hr₁ with ⟨r₀, hr₀, hid₀, hev₀⟩ | hfresh₁
        · exact Or.inl ⟨r₀, hr₀, hid₀.trans hid₁, RowEvolves_trans hev₀ hev₁⟩
        · exact Or.inr (hid₁ ▸ hfresh₁)
      · exact Or.inr (le_trans hstep.1 hfresh)

theorem runOps_survive (sim : Emb → Emb → ℚ) (encode : String → Emb) :
    ∀ (ops : List Op) (db : DB Emb), Op.clearOp ∉ ops →
      ∀ r ∈ db.rows, ∃ r' ∈ (runOps sim encode ops db).rows, r'.id = r.id := by
  intro ops
  induction ops with
  | nil => exact fun db _ r hr => ⟨r, hr, rfl⟩
  | cons op ops ih =>
    intro db hnc r hr
    have hop : op ≠ Op.clearOp := by
      intro hcon
      exact hnc (hcon ▸ List.mem_cons_self op ops)
    obtain ⟨r₁, hr₁, hid₁⟩ := stepOp_survive sim encode hop db r hr
    obtain ⟨r', hr', hid'⟩ := ih (stepOp sim encode db op)
      (fun hcon => hnc (List.mem_cons_of_mem op hcon)) r₁ hr₁
    exact ⟨r', hr', hid'.trans hid₁⟩

/-- C8: across every sequence of operations, a persisted record's
`consolidated` flag only transitions false→true and every other field
(content, source, timestamp, metadata, embedding, type) is immutable once
written — any row of the final state sharing an id with an initial row is an
evolution of it — and rows disappear only through `clear`: without a `clear`
in the sequence every initial row survives (same id) to the final state. -/
theorem records_immutable_flag_monotone (sim : Emb → Emb → ℚ)
    (encode : String → Emb) (ops : List Op) (db : DB Emb) (hwf : db.WF) :
    (∀ r ∈ db.rows, ∀ r' ∈ (runOps sim encode ops db).rows,
      r'.id = r.id → RowEvolves r r') ∧
    (Op.clearOp ∉ ops →
      ∀ r ∈ db.rows, ∃ r' ∈ (runOps sim encode ops db).rows, r'.id = r.id) := by
  constructor
  · intro r hr r' hr' hid
    rcases (runOps_evolve sim encode ops db).2 r' hr' with ⟨r₀, hr₀, hid₀, hev⟩ | hfresh
    · have hre : r₀ = r :=
        List.inj_on_of_nodup_map hwf.1 hr₀ hr (by rw [hid₀, hid])
      rwa [hre] at hev
    · rw [hid] at hfresh
      exact absurd hfresh (not_le.mpr (hwf.2 r hr))
  · exact runOps_survive sim encode ops db

end EvolutionLemmas

/-! Concrete instances of the external collaborators and concrete stores, used
to evaluate the model on explicit inputs. -/

section ConcreteInstances

/-- A concrete similarity collaborator: two embeddings score 1 when equal and
0 otherwise. -/
def simExact : Nat → Nat → ℚ := fun a b => if a = b then 1 else 0

/-- A concrete encoder collaborator mapping every text to embedding 0. -/
def encZero : String → Nat := fun _ => 0

/-- An episodic row with the given id, content and embedding blob. -/
def mkEpisodic (i : Nat) (c : String) (e : Option Nat) : Row Nat :=
  { id := i, content := c, source := "test", timestamp := 0,
    metadata := Metadata.empty, embedding := e, type := "episodic",
    consolidated := false }

/-- Four old episodic rows forming two similarity clusters. -/
def dbPair : DB Nat :=
  { rows := [mkEpisodic 1 "a1" (some 7), mkEpisodic 2 "a2" (some 7),
      mkEpisodic 3 "b1" (some 8), mkEpisodic 4 "b2" (some 8)], nextId := 5 }

/-- A store with one decodable and one corrupt embedding blob. -/
def dbCorrupt : DB Nat :=
  { rows := [mkEpisodic 1 "good" (some 7), mkEpisodic 2 "bad" none], nextId := 3 }

/-- A store with two mutually dissimilar decodable rows. -/
def dbTwo : DB Nat :=
  { rows := [mkEpisodic 1 "x" (some 7), mkEpisodic 2 "y" (some 8)], nextId := 3 }

/-- The eligible records of `dbPair` as read by a consolidation run. -/
def msPair : List (MemRec Nat) :=
  [{ id := 1, content := "a1", emb := 7 }, { id := 2, content := "a2", emb := 7 },
   { id := 3, content := "b1", emb := 8 }, { id := 4, content := "b2", emb := 8 }]

/-- A concrete operation sequence without `clear`. -/
def opsEx : List Op :=
  [Op.storeOp 50 "c" "s" "episodic" none,
   Op.consolidateOp 100 10 1 none,
   Op.retrieveOp "q" 5 none]

end ConcreteInstances

section ClaimEvidence

/-- C1: the atomicity claim fails on the code.  `consolidate_memories`
commits each new semantic record through `store` on the store's own
connection, while the consolidated-flag UPDATEs are only staged on the run's
outer connection; when the storage write of the second group (write index 3)
fails, the rollback discards the staged flags but the first group's semantic
record is already durably committed: the final state holds a committed
semantic record (consolidated_from = [1, 2]) whose sources 1 and 2 are not
flagged — exactly what the claim says can never be observed. -/
theorem consolidation_atomicity_violated :
    (consolidate_memories simExact encZero 100 10 1 (some 3) dbPair).2 = false ∧
    (∃ r ∈ (consolidate_memories simExact encZero 100 10 1 (some 3) dbPair).1.rows,
      r.type = "semantic" ∧ r.metadata = Metadata.consolidatedFrom [1, 2]) ∧
    (∀ r ∈ (consolidate_memories simExact encZero 100 10 1 (some 3) dbPair).1.rows,
      (r.id = 1 ∨ r.id = 2) → r.consolidated = false) := by
  decide

/-- C5 counterexample: the claim as stated fails on the code.  With one
decodable and one corrupt row in the store, the query does not exclude the
corrupt row and return the decodable one — it aborts and returns nothing. -/
theorem corrupt_embedding_aborts_query_cex :
    (∃ r ∈ dbCorrupt.rows, r.embedding.isSome = true) ∧
    (retrieve_relevant simExact encZero dbCorrupt "q" 5 none).toOption = none := by
  decide

/-- C6 counterexample: the claim "retrieve_relevant returns the empty list
whenever k ≤ 0" fails on the code for k < 0: with two matching rows and
top_k = -1, Python's `memories[:-1]` keeps one record. -/
theorem negative_topk_not_empty_cex :
    ((retrieve_relevant simExact encZero dbTwo "q" (-1) none).toOption.map
      List.length) = some 1 := by
  decide

end ClaimEvidence

section ClaimWitnesses

theorem consolidation_provenance_witness :
    dbPair.WF ∧ (∀ r ∈ dbPair.rows, r.embedding.isSome = true) ∧
    ((consolidate_memories simExact encZero 100 10 1 none dbPair).2 = true ∧
      (∀ g ∈ finalizedGroups simExact 1 (recsOf (eligibleRows dbPair (100 - 10))),
        2 ≤ g.length) ∧
      ((consolidate_memories simExact encZero 100 10 1 none dbPair).1.rows.drop
          dbPair.rows.length).map (fun r => (r.type, r.metadata, r.content)) =
        (finalizedGroups simExact 1 (recsOf (eligibleRows dbPair (100 - 10)))).map
          (fun g => ("semantic",
            Metadata.consolidatedFrom (g.map (fun m => m.id)), combineContents g)) ∧
      (∀ g ∈ finalizedGroups simExact 1 (recsOf (eligibleRows dbPair (100 - 10))),
        ∀ m ∈ g, ∃ r ∈ (consolidate_memories simExact encZero 100 10 1
            none dbPair).1.rows,
          r.id = m.id ∧ r.consolidated = true)) :=
  ⟨by decide, by decide,
    consolidation_provenance simExact encZero 100 10 1 dbPair (by decide) (by decide)⟩

theorem consolidation_grouping_seeded_witness :
    msPair.Nodup ∧
    (((consolidateGroups simExact 1 msPair).flatten).Perm msPair ∧
      List.Pairwise List.Disjoint (consolidateGroups simExact 1 msPair) ∧
      (∀ g ∈ consolidateGroups simExact 1 msPair, ∃ s tl, g = s :: tl) ∧
      (∀ (k : Nat) (s : MemRec Nat) (tl : List (MemRec Nat))
          (gs' : List (List (MemRec Nat))),
        (consolidateGroups simExact 1 msPair).drop k = (s :: tl) :: gs' →
        (∀ m ∈ tl, 1 ≤ simExact s.emb m.emb) ∧
        (∀ g ∈ gs', ∀ r ∈ g, simExact s.emb r.emb < 1))) :=
  ⟨by decide, consolidation_grouping_seeded simExact 1 msPair (by decide)⟩

theorem retrieval_ranking_stable_witness :
    (∀ r ∈ rowsMatching dbTwo none, r.embedding.isSome = true) ∧
    (∃ res, retrieve_relevant simExact encZero dbTwo "q" 5 none = .ok res ∧
      res.Pairwise (fun a b => b.similarity ≤ a.similarity) ∧
      ∀ v : ℚ, res.filter (fun x => decide (x.similarity = v)) <+:
        (memsTotal simExact (encZero "q") (rowsMatching dbTwo none)).filter
          (fun x => decide (x.similarity = v))) :=
  ⟨by decide, retrieval_ranking_stable simExact encZero dbTwo "q" 5 none (by decide)⟩

theorem retrieve_topk_length_witness :
    (∀ r ∈ rowsMatching dbTwo none, r.embedding.isSome = true) ∧
    (∃ res, retrieve_relevant simExact encZero dbTwo "q" 5 none = .ok res ∧
      ((0 : Int) ≤ 5 → res.length = min (5 : Int).toNat (rowsMatching dbTwo none).length) ∧
      ((5 : Int) < 0 → res.length = (rowsMatching dbTwo none).length - (-(5 : Int)).toNat) ∧
      (dbTwo.rows = [] → res = [])) :=
  ⟨by decide, retrieve_topk_length simExact encZero dbTwo "q" 5 none (by decide)⟩

theorem consolidate_singletons_no_effect_witness :
    (∀ r ∈ eligibleRows dbTwo (100 - 10), r.embedding.isSome = true) ∧
    ((recsOf (eligibleRows dbTwo (100 - 10))).Pairwise
      (fun a b => simExact a.emb b.emb < 1)) ∧
    ((∀ (ms : List (MemRec Nat)) (g : List (MemRec Nat)),
        g ∈ finalizedGroups simExact 1 ms → 2 ≤ g.length) ∧
      consolidate_memories simExact encZero 100 10 1 none dbTwo = (dbTwo, true)) :=
  ⟨by decide, by decide,
    consolidate_singletons_no_effect simExact encZero 100 10 1 none dbTwo
      (by decide) (by decide)⟩

theorem records_immutable_flag_monotone_witness :
    dbPair.WF ∧
    ((∀ r ∈ dbPair.rows, ∀ r' ∈ (runOps simExact encZero opsEx dbPair).rows,
        r'.id = r.id → RowEvolves r r') ∧
      (Op.clearOp ∉ opsEx →
        ∀ r ∈ dbPair.rows,
          ∃ r' ∈ (runOps simExact encZero opsEx dbPair).rows, r'.id = r.id)) :=
  ⟨by decide,
    records_immutable_flag_monotone simExact encZero opsEx dbPair (by decide)⟩

theorem store_default_metadata_empty_witness :
    (∀ r ∈ dbTwo.rows, r.embedding.isSome = true) ∧
    ((∃ nr : Row Nat,
        (store encZero 50 "c" "s" "episodic" none dbTwo).rows = dbTwo.rows ++ [nr] ∧
        nr.metadata = Metadata.empty ∧ nr.content = "c" ∧ nr.source = "s" ∧
        nr.consolidated = false) ∧
      ∃ res, retrieve_relevant simExact encZero
          (store encZero 50 "c" "s" "episodic" none dbTwo) "q" 5 none = .ok res ∧
        (∀ m ∈ res, m.metadata = Metadata.empty ∨
          ∃ r ∈ dbTwo.rows, m.metadata = r.metadata) ∧
        (((none : Option String) = none ∨ (none : Option String) = some "episodic") →
          (dbTwo.rows.length : Int) + 1 ≤ 5 →
          ∃ m ∈ res, m.content = "c" ∧ m.source = "s" ∧
            m.metadata = Metadata.empty)) :=
  ⟨by decide,
    store_default_metadata_empty simExact encZero 50 "c" "s" "episodic" "q" 5 none
      dbTwo (by decide)⟩

end ClaimWitnesses

end EnhancedMemory
